import Mathlib

set_option maxHeartbeats 1000000

/-! Shallow embedding of the VaLib maintenance scripts, centred on the
changelog merge engine of src/scripts/new.py together with the pieces of
src/scripts/utils.py that it uses.  Strings are modelled as lists of
characters; file contents are plain character lists and an absent file is
modelled as `none`.  Python exceptions raised by the merge are modelled by
an `Option` result: `none` means the call raised. -/

/-- Python whitespace test used by str.strip: the characters for which
str.isspace holds. -/
def isPySpace (c : Char) : Bool :=
  c = ' ' || c = '\t' || c = '\n' || c = '\r' || c = '\x0b' || c = '\x0c' ||
  c = '\x1c' || c = '\x1d' || c = '\x1e' || c = '\x1f' ||
  c = '\u0085' || c = '\u00a0' || c = '\u1680' ||
  ('\u2000' ≤ c && c ≤ '\u200a') || c = '\u2028' || c = '\u2029' ||
  c = '\u202f' || c = '\u205f' || c = '\u3000'

/-- The line boundary characters of Python str.splitlines (the pair
carriage return plus newline is handled separately as one boundary). -/
def isLineBreak (c : Char) : Bool :=
  c = '\n' || c = '\r' || c = '\x0b' || c = '\x0c' ||
  c = '\x1c' || c = '\x1d' || c = '\x1e' || c = '\u0085' ||
  c = '\u2028' || c = '\u2029'

/-- Python str.strip: drop leading and trailing whitespace. -/
def pyStrip (s : List Char) : List Char :=
  ((s.dropWhile isPySpace).reverse.dropWhile isPySpace).reverse

/-- Python str.startswith over character lists. -/
def startsWith : List Char → List Char → Bool
  | [], _ => true
  | _ :: _, [] => false
  | c :: p, d :: s => if c = d then startsWith p s else false

/-- Python substring test, needle in haystack. -/
def isSubstr (needle : List Char) : List Char → Bool
  | [] => needle.isEmpty
  | d :: s => startsWith needle (d :: s) || isSubstr needle s

/-- Python str.splitlines: split at every line boundary character, with
carriage return followed by newline consumed as a single boundary; a
trailing boundary does not produce a trailing empty line. -/
def splitLines : List Char → List (List Char)
  | [] => []
  | [c] => if isLineBreak c then [[]] else [[c]]
  | c :: d :: s =>
    if c = '\r' ∧ d = '\n' then [] :: splitLines s
    else if isLineBreak c then [] :: splitLines (d :: s)
    else
      match splitLines (d :: s) with
      | [] => [[c]]
      | l :: ls => (c :: l) :: ls

/-- A string with no line boundary character: splitting it yields itself
as a single line. -/
def lineFree (s : List Char) : Prop := ∀ c ∈ s, isLineBreak c = false

instance (s : List Char) : Decidable (lineFree s) :=
  decidable_of_iff (∀ c ∈ s, isLineBreak c = false) Iff.rfl

/-- The join performed by a newline join over a list of lines. -/
def joinLines : List (List Char) → List Char
  | [] => []
  | [l] => l
  | l :: ls => l ++ '\n' :: joinLines ls

/-- Python str.join for an arbitrary separator. -/
def joinWith (sep : List Char) : List (List Char) → List Char
  | [] => []
  | [l] => l
  | l :: ls => l ++ sep ++ joinWith sep ls

/-- Python list.index as an optional first index; `none` models the
ValueError raised when the element is absent. -/
def pyIndex (x : List Char) : List (List Char) → Option Nat
  | [] => none
  | y :: ys => if y = x then some 0 else (pyIndex x ys).map (· + 1)

/-- Python list.insert with its clamping semantics: an index past the end
appends. -/
def pyInsert (l : List (List Char)) (i : Nat) (x : List Char) : List (List Char) :=
  l.take i ++ x :: l.drop i

/-- How many lines of the list equal the given line. -/
def countLine (x : List Char) : List (List Char) → Nat
  | [] => 0
  | y :: ys => (if y = x then 1 else 0) + countLine x ys

/-- The CHANGE_TYPES dictionary of new.py as a lookup from change-kind
keyword to display name; `none` models a KeyError. -/
def lookupKind (ct : List Char) : Option (List Char) :=
  if ct = "add".toList then some ("Added".toList)
  else if ct = "fix".toList then some ("Fixed".toList)
  else if ct = "change".toList then some ("Changed".toList)
  else if ct = "remove".toList then some ("Removed".toList)
  else none

/-- The MODULES tuple of new.py. -/
def MODULES : List (List Char) :=
  ["Types".toList, "Utils".toList, "FuncTools".toList]

/-- VERSION from utils.py. -/
def VERSION : List Char := "1.9.0".toList

/-- The `total` f-string of updateChangelog: the module tag followed by the
message, with the bracket style selected by membership in MODULES. -/
def formatTotal (module msg : List Char) : List Char :=
  (if module ∈ MODULES then "**[ ".toList ++ module ++ " ]**".toList
   else "**( ".toList ++ module ++ " )**".toList) ++ ' ' :: msg

/-- A rendered changelog entry line, `- ` followed by the total. -/
def entryLine (module msg : List Char) : List Char :=
  '-' :: ' ' :: formatTotal module msg

/-- The section header text for a version and date. -/
def sectionHeaderOf (version date : List Char) : List Char :=
  "## [".toList ++ version ++ "] - ".toList ++ date

/-- The heading line text for a change-kind display name. -/
def headingOf (n : List Char) : List Char := "### ".toList ++ n

/-- The first while loop of updateChangelog: starting just after the
section header, look for the change heading, stopping early at the next
section header; returns the final insertionPoint and the foundHeading
flag.  It is applied to the suffix of the line list paired with the
absolute index of its first element. -/
def scanFrom (changeHeading : List Char) : List (List Char) → Nat → Nat × Bool
  | [], i => (i, false)
  | l :: ls, i =>
    if startsWith "## [".toList l then (i, false)
    else if pyStrip l = changeHeading then (i, true)
    else scanFrom changeHeading ls (i + 1)

/-- The loop condition of the entry-run scan of updateChangelog: a line
whose stripped form begins with a dash and a space, or is blank. -/
def isEntryish (l : List Char) : Bool :=
  startsWith "- ".toList (pyStrip l) || (pyStrip l).isEmpty

/-- The second while loop of updateChangelog: advance past the contiguous
run of entry lines and blank lines after a found heading. -/
def entryScan : List (List Char) → Nat → Nat
  | [], i => i
  | l :: ls, i => if isEntryish l then entryScan ls (i + 1) else i

/-- ensureChangelogExists of new.py: the file content after creating the
titled file when it is absent. -/
def ensureChangelogExists : Option (List Char) → List Char
  | none => "# Changelog\n".toList
  | some c => c

/-- updateChangelog of new.py as a function from the previous file state
to the new file content; `none` models an uncaught Python exception
(KeyError on the change kind, or ValueError from lines.index). -/
def updateChangelog (version today changeType module msg : List Char)
    (file : Option (List Char)) : Option (List Char) :=
  match lookupKind changeType with
  | none => none
  | some name =>
    let sectionHeader := sectionHeaderOf version today
    let changeHeading := headingOf name
    let content := ensureChangelogExists file
    let lines := splitLines content
    let total := formatTotal module msg
    if isSubstr sectionHeader content = false then
      some (content ++ '\n' :: (sectionHeader ++ '\n' :: (changeHeading ++ '\n' :: ('-' :: ' ' :: total ++ ['\n']))))
    else
      match pyIndex sectionHeader lines with
      | none => none
      | some idx =>
        let r := scanFrom changeHeading (lines.drop (idx + 1)) (idx + 1)
        if r.2 then
          let hIdx := entryScan (lines.drop (r.1 + 1)) (r.1 + 1)
          some (joinLines (pyInsert lines hIdx ('-' :: ' ' :: total)))
        else
          some (joinLines (pyInsert lines (r.1 + 1) (changeHeading ++ '\n' :: '-' :: ' ' :: total)))

/-- Sequential merges of a list of messages with a fixed version, date,
kind and module; the state is the file content (inner Option: file
existence) and the outer `none` models an exception aborting the run. -/
def mergeSeq (version today changeType module : List Char) :
    List (List Char) → Option (List Char) → Option (Option (List Char))
  | [], file => some file
  | m :: ms, file =>
    match updateChangelog version today changeType module m file with
    | none => none
    | some c => mergeSeq version today changeType module ms (some c)

def InvalidArgErrorExit : Nat := 1
def ErrorExit : Nat := 2
def SuccessExit : Nat := 0

/-- Observable outcome of one run of main: the process exit code, whether
the usage message was printed, and the resulting changelog file state. -/
structure RunResult where
  exitCode : Nat
  usagePrinted : Bool
  file : Option (List Char)
deriving DecidableEq

/-- The module string main builds from argv. -/
def cliModule (argv : List (List Char)) : List Char :=
  if argv.length > 2 then
    argv.getD 2 [] ++ ':' :: ' ' :: joinWith (',' :: [' ']) (argv.drop 3)
  else argv.getD 2 []

/-- main of new.py over explicit inputs: argv, the message returned by the
editor collaborator, the current date, and the changelog file state.  The
git calls are external side effects with no bearing on the file. -/
def mainRun (argv : List (List Char)) (editorMsg today : List Char)
    (file : Option (List Char)) : RunResult :=
  if argv.length < 3 ∨ lookupKind (argv.getD 1 []) = none then
    ⟨InvalidArgErrorExit, true, file⟩
  else
    if editorMsg = [] then
      ⟨ErrorExit, false, file⟩
    else
      match updateChangelog VERSION today (argv.getD 1 []) (cliModule argv) editorMsg file with
      | some f2 => ⟨SuccessExit, false, some f2⟩
      | none => ⟨1, false, file⟩

/-! ### Basic facts about line splitting and joining -/

theorem lineFree_nil : lineFree [] := by intro c hc; cases hc

theorem lineFree_append {a b : List Char} (ha : lineFree a) (hb : lineFree b) :
    lineFree (a ++ b) := by
  intro c hc
  rcases List.mem_append.mp hc with h | h
  · exact ha c h
  · exact hb c h

theorem lineFree_cons {c : Char} {a : List Char} (hc : isLineBreak c = false)
    (ha : lineFree a) : lineFree (c :: a) := by
  intro d hd
  rcases List.mem_cons.mp hd with h | h
  · exact h ▸ hc
  · exact ha d h

theorem lineFree_of_append_left {a b : List Char} (h : lineFree (a ++ b)) :
    lineFree a := fun c hc => h c (List.mem_append.mpr (Or.inl hc))

theorem lineFree_of_append_right {a b : List Char} (h : lineFree (a ++ b)) :
    lineFree b := fun c hc => h c (List.mem_append.mpr (Or.inr hc))

theorem splitLines_nil : splitLines [] = [] := rfl

theorem splitLines_break {c : Char} {s : List Char} (hb : isLineBreak c = true)
    (hcr : ¬ (c = '\r' ∧ s.head? = some '\n')) :
    splitLines (c :: s) = [] :: splitLines s := by
  cases s with
  | nil =>
    rw [show splitLines [c] = if isLineBreak c then [[]] else [[c]] from rfl,
      if_pos hb]
    rfl
  | cons d t =>
    have hcr2 : ¬ (c = '\r' ∧ d = '\n') := by
      rintro ⟨h1, h2⟩
      exact hcr ⟨h1, by rw [h2]; rfl⟩
    rw [splitLines, if_neg hcr2, if_pos hb]

theorem splitLines_crlf (s : List Char) :
    splitLines ('\r' :: '\n' :: s) = [] :: splitLines s := by
  rw [splitLines, if_pos ⟨rfl, rfl⟩]

theorem splitLines_nonbreak {c : Char} {s : List Char} (hb : isLineBreak c = false) :
    splitLines (c :: s) =
      match splitLines s with
      | [] => [[c]]
      | l :: ls => (c :: l) :: ls := by
  have hc : c ≠ '\r' := by
    intro h
    subst h
    simp [isLineBreak] at hb
  cases s with
  | nil =>
    rw [show splitLines [c] = if isLineBreak c then [[]] else [[c]] from rfl,
      if_neg (by simp [hb]), splitLines_nil]
  | cons d t =>
    rw [splitLines, if_neg (by rintro ⟨h1, -⟩; exact hc h1), if_neg (by simp [hb])]

theorem splitLines_ne_nil {s : List Char} (h : s ≠ []) : splitLines s ≠ [] := by
  cases s with
  | nil => exact absurd rfl h
  | cons c t =>
    cases t with
    | nil =>
      rw [show splitLines [c] = if isLineBreak c then [[]] else [[c]] from rfl]
      split <;> simp
    | cons d u =>
      rw [splitLines]
      split
      · simp
      · split
        · simp
        · split <;> simp

theorem splitLines_newline_cons (t : List Char) :
    splitLines ('\n' :: t) = [] :: splitLines t := by
  apply splitLines_break (by decide)
  rintro ⟨h, -⟩
  cases h

theorem splitLines_append_newline {l : List Char} (hl : lineFree l) (t : List Char) :
    splitLines (l ++ '\n' :: t) = l :: splitLines t := by
  induction l with
  | nil => simpa using splitLines_newline_cons t
  | cons c l ih =>
    have hc : isLineBreak c = false := hl c (List.mem_cons_self c l)
    have hl2 : lineFree l := fun d hd => hl d (List.mem_cons_of_mem c hd)
    rw [List.cons_append, splitLines_nonbreak hc, ih hl2]

theorem splitLines_single {l : List Char} (hl : lineFree l) (hne : l ≠ []) :
    splitLines l = [l] := by
  induction l with
  | nil => exact absurd rfl hne
  | cons c l ih =>
    have hc : isLineBreak c = false := hl c (List.mem_cons_self c l)
    have hl2 : lineFree l := fun d hd => hl d (List.mem_cons_of_mem c hd)
    rw [splitLines_nonbreak hc]
    cases hl' : l with
    | nil => rw [hl'] at *; rw [splitLines_nil]
    | cons d t =>
      rw [← hl', ih hl2 (by rw [hl']; exact List.cons_ne_nil d t)]

theorem splitLines_split (s t : List Char) :
    splitLines (s ++ '\n' :: t) = splitLines (s ++ ['\n']) ++ splitLines t := by
  have key : ∀ (n : Nat) (s t : List Char), s.length ≤ n →
      splitLines (s ++ '\n' :: t) = splitLines (s ++ ['\n']) ++ splitLines t := by
    intro n
    induction n with
    | zero =>
      intro s t hs
      have hnil : s = [] := List.eq_nil_of_length_eq_zero (Nat.le_zero.mp hs)
      subst hnil
      rw [List.nil_append, List.nil_append, splitLines_newline_cons,
        splitLines_newline_cons, splitLines_nil]
      rfl
    | succ n ih =>
      intro s t hs
      cases s with
      | nil =>
        rw [List.nil_append, List.nil_append, splitLines_newline_cons,
          splitLines_newline_cons, splitLines_nil]
        rfl
      | cons c s1 =>
        have hs1 : s1.length ≤ n := by
          simp only [List.length_cons] at hs
          omega
        by_cases hcr : c = '\r' ∧ (s1 ++ '\n' :: t).head? = some '\n'
        · obtain ⟨hc, hh⟩ := hcr
          subst hc
          cases s1 with
          | nil =>
            rw [List.cons_append, List.nil_append, splitLines_crlf]
            rw [show ('\r' :: ([] : List Char)) ++ ['\n'] = '\r' :: '\n' :: [] from rfl]
            rw [splitLines_crlf, splitLines_nil]
            rfl
          | cons d s2 =>
            have hd : d = '\n' := by simpa using hh
            subst hd
            have hs2 : s2.length ≤ n := by
              simp only [List.length_cons] at hs1
              omega
            rw [List.cons_append, List.cons_append, splitLines_crlf]
            rw [show ('\r' :: '\n' :: s2) ++ ['\n'] = '\r' :: '\n' :: (s2 ++ ['\n']) from rfl]
            rw [splitLines_crlf]
            rw [ih s2 t hs2]
            rfl
        · by_cases hb : isLineBreak c = true
          · have hcrL : ¬ (c = '\r' ∧ (s1 ++ '\n' :: t).head? = some '\n') := hcr
            have hcrR : ¬ (c = '\r' ∧ (s1 ++ ['\n']).head? = some '\n') := by
              intro h
              apply hcr
              refine ⟨h.1, ?_⟩
              cases s1 with
              | nil => rfl
              | cons d s2 => simpa using h.2
            rw [List.cons_append, List.cons_append,
              splitLines_break hb hcrL, splitLines_break hb hcrR, ih s1 t hs1]
            rfl
          · have hbf : isLineBreak c = false := by simpa using hb
            rw [List.cons_append, List.cons_append,
              splitLines_nonbreak hbf, splitLines_nonbreak hbf, ih s1 t hs1]
            have hne : splitLines (s1 ++ ['\n']) ≠ [] :=
              splitLines_ne_nil (by simp)
            cases hsp : splitLines (s1 ++ ['\n']) with
            | nil => exact absurd hsp hne
            | cons l ls => rfl
  exact key s.length s t le_rfl

theorem lineFree_of_mem_splitLines : ∀ {s l : List Char}, l ∈ splitLines s → lineFree l := by
  have key : ∀ (n : Nat) (s l : List Char), s.length ≤ n → l ∈ splitLines s → lineFree l := by
    intro n
    induction n with
    | zero =>
      intro s l hs hm
      have hnil : s = [] := List.eq_nil_of_length_eq_zero (Nat.le_zero.mp hs)
      subst hnil
      rw [splitLines_nil] at hm
      cases hm
    | succ n ih =>
      intro s l hs hm
      cases s with
      | nil =>
        rw [splitLines_nil] at hm
        cases hm
      | cons c s1 =>
        have hs1 : s1.length ≤ n := by
          simp only [List.length_cons] at hs
          omega
        by_cases hcr : c = '\r' ∧ s1.head? = some '\n'
        · obtain ⟨hc, hh⟩ := hcr
          subst hc
          cases s1 with
          | nil => simp at hh
          | cons d s2 =>
            have hd : d = '\n' := by simpa using hh
            subst hd
            rw [splitLines_crlf] at hm
            rcases List.mem_cons.mp hm with h | h
            · exact h ▸ lineFree_nil
            · exact ih s2 l (by simp only [List.length_cons] at hs1; omega) h
        · by_cases hb : isLineBreak c = true
          · rw [splitLines_break hb hcr] at hm
            rcases List.mem_cons.mp hm with h | h
            · exact h ▸ lineFree_nil
            · exact ih s1 l hs1 h
          · have hbf : isLineBreak c = false := by simpa using hb
            rw [splitLines_nonbreak hbf] at hm
            cases hsp : splitLines s1 with
            | nil =>
              rw [hsp] at hm
              rcases List.mem_cons.mp hm with h | h
              · exact h ▸ lineFree_cons hbf lineFree_nil
              · cases h
            | cons l0 ls0 =>
              rw [hsp] at hm
              rcases List.mem_cons.mp hm with h | h
              · have hl0 : lineFree l0 :=
                  ih s1 l0 hs1 (by rw [hsp]; exact List.mem_cons_self l0 ls0)
                exact h ▸ lineFree_cons hbf hl0
              · exact ih s1 l hs1 (by rw [hsp]; exact List.mem_cons_of_mem l0 h)
  exact fun {s l} hm => key s.length s l le_rfl hm

theorem splitLines_head_prefix : ∀ {s l : List Char} {ls : List (List Char)},
    splitLines s = l :: ls → ∃ b, s = l ++ b := by
  have key : ∀ (n : Nat) (s l : List Char) (ls : List (List Char)), s.length ≤ n →
      splitLines s = l :: ls → ∃ b, s = l ++ b := by
    intro n
    induction n with
    | zero =>
      intro s l ls hs hsp
      have hnil : s = [] := List.eq_nil_of_length_eq_zero (Nat.le_zero.mp hs)
      subst hnil
      rw [splitLines_nil] at hsp
      cases hsp
    | succ n ih =>
      intro s l ls hs hsp
      cases s with
      | nil =>
        rw [splitLines_nil] at hsp
        cases hsp
      | cons c s1 =>
        have hs1 : s1.length ≤ n := by
          simp only [List.length_cons] at hs
          omega
        by_cases hcr : c = '\r' ∧ s1.head? = some '\n'
        · obtain ⟨hc, hh⟩ := hcr
          subst hc
          cases s1 with
          | nil => simp at hh
          | cons d s2 =>
            have hd : d = '\n' := by simpa using hh
            subst hd
            rw [splitLines_crlf] at hsp
            obtain ⟨h1, -⟩ := List.cons.injEq .. ▸ hsp
            exact ⟨'\r' :: '\n' :: s2, by rw [← h1]; rfl⟩
        · by_cases hb : isLineBreak c = true
          · rw [splitLines_break hb hcr] at hsp
            obtain ⟨h1, -⟩ := List.cons.injEq .. ▸ hsp
            exact ⟨c :: s1, by rw [← h1]; rfl⟩
          · have hbf : isLineBreak c = false := by simpa using hb
            rw [splitLines_nonbreak hbf] at hsp
            cases hsp2 : splitLines s1 with
            | nil =>
              rw [hsp2] at hsp
              simp only at hsp
              obtain ⟨h1, -⟩ := List.cons.injEq .. ▸ hsp
              exact ⟨s1, by rw [← h1]; rfl⟩
            | cons l0 ls0 =>
              rw [hsp2] at hsp
              simp only at hsp
              obtain ⟨h1, -⟩ := List.cons.injEq .. ▸ hsp
              obtain ⟨b, hb2⟩ := ih s1 l0 ls0 hs1 hsp2
              exact ⟨b, by rw [← h1, List.cons_append, ← hb2]⟩
  exact fun {s l ls} hsp => key s.length s l ls le_rfl hsp

theorem mem_splitLines_decomp : ∀ {s l : List Char}, l ∈ splitLines s →
    ∃ a b, s = a ++ l ++ b := by
  have key : ∀ (n : Nat) (s l : List Char), s.length ≤ n → l ∈ splitLines s →
      ∃ a b, s = a ++ l ++ b := by
    intro n
    induction n with
    | zero =>
      intro s l hs hm
      have hnil : s = [] := List.eq_nil_of_length_eq_zero (Nat.le_zero.mp hs)
      subst hnil
      rw [splitLines_nil] at hm
      cases hm
    | succ n ih =>
      intro s l hs hm
      cases s with
      | nil =>
        rw [splitLines_nil] at hm
        cases hm
      | cons c s1 =>
        have hs1 : s1.length ≤ n := by
          simp only [List.length_cons] at hs
          omega
        by_cases hcr : c = '\r' ∧ s1.head? = some '\n'
        · obtain ⟨hc, hh⟩ := hcr
          subst hc
          cases s1 with
          | nil => simp at hh
          | cons d s2 =>
            have hd : d = '\n' := by simpa using hh
            subst hd
            rw [splitLines_crlf] at hm
            rcases List.mem_cons.mp hm with h | h
            · exact ⟨[], '\r' :: '\n' :: s2, by rw [h]; rfl⟩
            · obtain ⟨a, b, hab⟩ :=
                ih s2 l (by simp only [List.length_cons] at hs1; omega) h
              exact ⟨'\r' :: '\n' :: a, b, by simp [hab]⟩
        · by_cases hb : isLineBreak c = true
          · rw [splitLines_break hb hcr] at hm
            rcases List.mem_cons.mp hm with h | h
            · exact ⟨[], c :: s1, by rw [h]; rfl⟩
            · obtain ⟨a, b, hab⟩ := ih s1 l hs1 h
              exact ⟨c :: a, b, by simp [hab]⟩
          · have hbf : isLineBreak c = false := by simpa using hb
            rw [splitLines_nonbreak hbf] at hm
            cases hsp2 : splitLines s1 with
            | nil =>
              rw [hsp2] at hm
              simp only at hm
              rcases List.mem_cons.mp hm with h | h
              · exact ⟨[], s1, by rw [h]; rfl⟩
              · cases h
            | cons l0 ls0 =>
              rw [hsp2] at hm
              simp only at hm
              rcases List.mem_cons.mp hm with h | h
              · obtain ⟨b, hb2⟩ := splitLines_head_prefix hsp2
                exact ⟨[], b, by rw [h, List.nil_append, List.cons_append, ← hb2]⟩
              · obtain ⟨a, b, hab⟩ :=
                  ih s1 l hs1 (by rw [hsp2]; exact List.mem_cons_of_mem l0 h)
                exact ⟨c :: a, b, by simp [hab]⟩
  exact fun {s l} hm => key s.length s l le_rfl hm

theorem joinLines_cons_of_ne {ls : List (List Char)} (l : List Char) (h : ls ≠ []) :
    joinLines (l :: ls) = l ++ '\n' :: joinLines ls := by
  cases ls with
  | nil => exact absurd rfl h
  | cons l2 ls2 => rfl

theorem splitLines_joinLines {ls : List (List Char)} (h1 : ∀ l ∈ ls, lineFree l)
    (h2 : ls ≠ []) (h3 : ls.getLast? ≠ some []) : splitLines (joinLines ls) = ls := by
  induction ls with
  | nil => exact absurd rfl h2
  | cons l ls ih =>
    cases ls with
    | nil =>
      have hl : l ≠ [] := by
        intro h
        exact h3 (by rw [h]; rfl)
      exact splitLines_single (h1 l (List.mem_cons_self l [])) hl
    | cons l2 ls2 =>
      rw [joinLines_cons_of_ne l (by simp)]
      rw [splitLines_append_newline (h1 l (List.mem_cons_self l _))]
      congr 1
      apply ih
      · intro x hx
        exact h1 x (List.mem_cons_of_mem l hx)
      · simp
      · rwa [List.getLast?_cons_cons] at h3

theorem splitLines_joinLines_newline {ls : List (List Char)} (h1 : ∀ l ∈ ls, lineFree l)
    (h2 : ls ≠ []) : splitLines (joinLines ls ++ ['\n']) = ls := by
  induction ls with
  | nil => exact absurd rfl h2
  | cons l ls ih =>
    cases ls with
    | nil =>
      have := splitLines_append_newline (h1 l (List.mem_cons_self l [])) ([] : List Char)
      rw [splitLines_nil] at this
      exact this
    | cons l2 ls2 =>
      rw [joinLines_cons_of_ne l (by simp)]
      rw [show (l ++ '\n' :: joinLines (l2 :: ls2)) ++ ['\n'] =
        l ++ '\n' :: (joinLines (l2 :: ls2) ++ ['\n']) by simp]
      rw [splitLines_append_newline (h1 l (List.mem_cons_self l _))]
      congr 1
      apply ih
      · intro x hx
        exact h1 x (List.mem_cons_of_mem l hx)
      · simp

theorem joinLines_embed (xs : List (List Char)) (a b : List Char) :
    joinLines (xs ++ [a ++ '\n' :: b]) = joinLines (xs ++ [a, b]) := by
  induction xs with
  | nil => rfl
  | cons x xs ih =>
    rw [List.cons_append, List.cons_append,
      joinLines_cons_of_ne x (by simp), joinLines_cons_of_ne x (by simp), ih]

theorem startsWith_self_append (p r : List Char) : startsWith p (p ++ r) = true := by
  induction p with
  | nil => rfl
  | cons c p ih => simpa [startsWith] using ih

theorem startsWith_sound : ∀ {p s : List Char}, startsWith p s = true → ∃ r, s = p ++ r := by
  intro p
  induction p with
  | nil => exact fun {s} _ => ⟨s, rfl⟩
  | cons c p ih =>
    intro s h
    cases s with
    | nil => simp [startsWith] at h
    | cons d t =>
      simp only [startsWith] at h
      by_cases hcd : c = d
      · rw [if_pos hcd] at h
        obtain ⟨r, hr⟩ := ih h
        exact ⟨r, by rw [hcd, List.cons_append, ← hr]⟩
      · rw [if_neg hcd] at h
        cases h

theorem isSubstr_of_decomp (nd a b : List Char) : isSubstr nd (a ++ nd ++ b) = true := by
  induction a with
  | nil =>
    rw [List.nil_append]
    cases hnb : nd ++ b with
    | nil =>
      have hnd : nd = [] := by
        cases nd with
        | nil => rfl
        | cons c t => simp at hnb
      subst hnd
      rfl
    | cons d t =>
      rw [isSubstr, ← hnb, startsWith_self_append]
      rfl
  | cons c a ih =>
    rw [List.cons_append, List.cons_append, isSubstr]
    rw [show c :: (a ++ nd ++ b) = c :: (a ++ nd ++ b) from rfl]
    have : isSubstr nd (a ++ nd ++ b) = true := ih
    rw [this, Bool.or_true]

theorem isSubstr_sound : ∀ {nd s : List Char}, isSubstr nd s = true →
    ∃ a b, s = a ++ nd ++ b := by
  intro nd s
  induction s with
  | nil =>
    intro h
    rw [isSubstr] at h
    have hnd : nd = [] := by
      cases nd with
      | nil => rfl
      | cons c t => simp [List.isEmpty] at h
    exact ⟨[], [], by rw [hnd]; rfl⟩
  | cons d t ih =>
    intro h
    have h' : startsWith nd (d :: t) = true ∨ isSubstr nd t = true := by
      simpa [isSubstr] using h
    rcases h' with h1 | h2
    · obtain ⟨r, hr⟩ := startsWith_sound h1
      exact ⟨[], r, by rw [hr]; rfl⟩
    · obtain ⟨a, b, hab⟩ := ih h2
      exact ⟨d :: a, b, by rw [hab]; rfl⟩

theorem isSubstr_of_mem_concat {H content : List Char} (hH : lineFree H) (hne : H ≠ [])
    (hmem : H ∈ splitLines (content ++ ['\n'])) : isSubstr H content = true := by
  obtain ⟨a, b, hab⟩ := mem_splitLines_decomp hmem
  rcases List.eq_nil_or_concat b with hb | ⟨L, x, hb⟩
  · subst hb
    rcases List.eq_nil_or_concat H with hH0 | ⟨L2, y, hH2⟩
    · exact absurd hH0 hne
    · rw [List.concat_eq_append] at hH2
      have h1 : (content ++ ['\n']).getLast? = some '\n' := List.getLast?_concat _
      rw [hab, hH2] at h1
      have h2 : (a ++ (L2 ++ [y]) ++ []).getLast? = some y := by
        rw [List.append_nil, ← List.append_assoc]
        exact List.getLast?_concat _
      rw [h2] at h1
      have hy : y = '\n' := by injection h1
      have hmemy : y ∈ H := by
        rw [hH2]
        exact List.mem_append.mpr (Or.inr (List.mem_singleton_self y))
      have := hH y hmemy
      rw [hy] at this
      simp [isLineBreak] at this
  · rw [List.concat_eq_append] at hb
    subst hb
    have h2 : (content ++ ['\n']).dropLast = ((a ++ H ++ L) ++ [x]).dropLast := by
      rw [hab]
      simp [List.append_assoc]
    rw [List.dropLast_concat, List.dropLast_concat] at h2
    rw [h2]
    exact isSubstr_of_decomp H a L

theorem ne_header_of_mem_concat {H content : List Char} (hH : lineFree H)
    (hne : H ≠ []) (hni : isSubstr H content = false) :
    ∀ l ∈ splitLines (content ++ ['\n']), l ≠ H := by
  intro l hl he
  subst he
  rw [isSubstr_of_mem_concat hH hne hl] at hni
  cases hni

/-! ### Facts about the index, scan and insert primitives -/

theorem pyIndex_append_first {x : List Char} {pre : List (List Char)}
    (rest : List (List Char)) (h : ∀ l ∈ pre, l ≠ x) :
    pyIndex x (pre ++ x :: rest) = some pre.length := by
  induction pre with
  | nil => simp [pyIndex]
  | cons y pre ih =>
    rw [List.cons_append, pyIndex,
      if_neg (h y (List.mem_cons_self y pre))]
    rw [ih fun l hl => h l (List.mem_cons_of_mem y hl)]
    rfl

theorem pyIndex_some_of_mem {x : List Char} : ∀ {ls : List (List Char)}, x ∈ ls →
    ∃ i, pyIndex x ls = some i := by
  intro ls
  induction ls with
  | nil => intro h; cases h
  | cons y ys ih =>
    intro h
    rw [pyIndex]
    by_cases hyx : y = x
    · exact ⟨0, by rw [if_pos hyx]⟩
    · rcases List.mem_cons.mp h with h1 | h2
      · exact absurd h1.symm hyx
      · obtain ⟨i, hi⟩ := ih h2
        exact ⟨i + 1, by rw [if_neg hyx, hi]; rfl⟩

theorem scanFrom_exhaust {ch : List Char} : ∀ {tail : List (List Char)} (i : Nat),
    (∀ l ∈ tail, startsWith "## [".toList l = false ∧ pyStrip l ≠ ch) →
    scanFrom ch tail i = (i + tail.length, false) := by
  intro tail
  induction tail with
  | nil => intro i _; simp [scanFrom]
  | cons l ls ih =>
    intro i h
    obtain ⟨h1, h2⟩ := h l (List.mem_cons_self l ls)
    rw [scanFrom, if_neg (by rw [h1]; exact Bool.false_ne_true), if_neg h2]
    rw [ih (i + 1) fun l2 hl2 => h l2 (List.mem_cons_of_mem l hl2)]
    simp only [List.length_cons]
    congr 1
    omega

theorem scanFrom_found {ch : List Char} {target : List Char}
    (ht1 : startsWith "## [".toList target = false) (ht2 : pyStrip target = ch) :
    ∀ {mid : List (List Char)} (rest : List (List Char)) (i : Nat),
    (∀ l ∈ mid, startsWith "## [".toList l = false ∧ pyStrip l ≠ ch) →
    scanFrom ch (mid ++ target :: rest) i = (i + mid.length, true) := by
  intro mid
  induction mid with
  | nil =>
    intro rest i _
    rw [List.nil_append, scanFrom, if_neg (by rw [ht1]; exact Bool.false_ne_true),
      if_pos ht2]
    simp
  | cons l ls ih =>
    intro rest i h
    obtain ⟨h1, h2⟩ := h l (List.mem_cons_self l ls)
    rw [List.cons_append, scanFrom, if_neg (by rw [h1]; exact Bool.false_ne_true),
      if_neg h2]
    rw [ih rest (i + 1) fun l2 hl2 => h l2 (List.mem_cons_of_mem l hl2)]
    simp only [List.length_cons]
    rw [show i + 1 + ls.length = i + (ls.length + 1) from by omega]

theorem entryScan_exhaust : ∀ {run : List (List Char)} (i : Nat),
    (∀ l ∈ run, isEntryish l = true) → entryScan run i = i + run.length := by
  intro run
  induction run with
  | nil => intro i _; simp [entryScan]
  | cons l ls ih =>
    intro i h
    rw [entryScan, if_pos (h l (List.mem_cons_self l ls))]
    rw [ih (i + 1) fun l2 hl2 => h l2 (List.mem_cons_of_mem l hl2)]
    simp only [List.length_cons]
    omega

theorem entryScan_stop {r0 : List Char} (h0 : isEntryish r0 = false) :
    ∀ {run : List (List Char)} (rs : List (List Char)) (i : Nat),
    (∀ l ∈ run, isEntryish l = true) →
    entryScan (run ++ r0 :: rs) i = i + run.length := by
  intro run
  induction run with
  | nil =>
    intro rs i _
    rw [List.nil_append, entryScan, if_neg (by rw [h0]; exact Bool.false_ne_true)]
    simp
  | cons l ls ih =>
    intro rs i h
    rw [List.cons_append, entryScan, if_pos (h l (List.mem_cons_self l ls))]
    rw [ih rs (i + 1) fun l2 hl2 => h l2 (List.mem_cons_of_mem l hl2)]
    simp only [List.length_cons]
    omega

theorem pyInsert_at_append (as bs : List (List Char)) (x : List Char) :
    pyInsert (as ++ bs) as.length x = as ++ x :: bs := by
  rw [pyInsert, List.take_left, List.drop_left]

theorem pyInsert_past_end {ls : List (List Char)} {i : Nat} (x : List Char)
    (h : ls.length ≤ i) : pyInsert ls i x = ls ++ [x] := by
  rw [pyInsert, List.take_of_length_le h, List.drop_eq_nil_of_le h]

/-! ### Facts about counting lines -/

theorem countLine_append (x : List Char) (a b : List (List Char)) :
    countLine x (a ++ b) = countLine x a + countLine x b := by
  induction a with
  | nil => simp [countLine]
  | cons y ys ih =>
    rw [List.cons_append, countLine, countLine, ih]
    omega

theorem countLine_eq_zero {x : List Char} {ls : List (List Char)}
    (h : ∀ l ∈ ls, l ≠ x) : countLine x ls = 0 := by
  induction ls with
  | nil => rfl
  | cons y ys ih =>
    rw [countLine, if_neg (h y (List.mem_cons_self y ys))]
    rw [ih fun l hl => h l (List.mem_cons_of_mem y hl)]

/-! ### Structure of entry lines, headings and the section header -/

theorem dropWhile_append_stop (p : Char → Bool) : ∀ (a : List Char) (x : Char) (b : List Char),
    p x = false → ∃ w, List.dropWhile p (a ++ x :: b) = w ++ x :: b := by
  intro a
  induction a with
  | nil =>
    intro x b hx
    exact ⟨[], by rw [List.nil_append, List.dropWhile_cons,
      if_neg (by rw [hx]; exact Bool.false_ne_true)]⟩
  | cons c a ih =>
    intro x b hx
    by_cases hc : p c = true
    · obtain ⟨w, hw⟩ := ih x b hx
      exact ⟨w, by rw [List.cons_append, List.dropWhile_cons, if_pos hc, hw]⟩
    · exact ⟨c :: a, by rw [List.cons_append, List.dropWhile_cons, if_neg hc]⟩

theorem formatTotal_head (module msg : List Char) :
    ∃ r, formatTotal module msg = '*' :: r := by
  rw [formatTotal]
  by_cases h : module ∈ MODULES
  · rw [if_pos h]
    exact ⟨"*[ ".toList ++ module ++ " ]**".toList ++ ' ' :: msg, by simp⟩
  · rw [if_neg h]
    exact ⟨"*( ".toList ++ module ++ " )**".toList ++ ' ' :: msg, by simp⟩

theorem pyStrip_entryLine (module msg : List Char) :
    ∃ w, pyStrip (entryLine module msg) = '-' :: ' ' :: '*' :: w := by
  obtain ⟨r, hr⟩ := formatTotal_head module msg
  rw [entryLine, hr, pyStrip]
  rw [List.dropWhile_cons, if_neg (by decide)]
  rw [show ('-' :: ' ' :: '*' :: r).reverse = r.reverse ++ '*' :: ' ' :: '-' :: [] from by simp]
  obtain ⟨w, hw⟩ := dropWhile_append_stop isPySpace r.reverse '*' (' ' :: '-' :: []) (by decide)
  rw [hw]
  exact ⟨w.reverse, by simp⟩

theorem entryLine_entryish (module msg : List Char) : isEntryish (entryLine module msg) = true := by
  obtain ⟨w, hw⟩ := pyStrip_entryLine module msg
  rw [isEntryish, hw]
  rw [show startsWith "- ".toList ('-' :: ' ' :: '*' :: w) = true from by simp [startsWith]]
  rfl

theorem pyStrip_entryLine_ne_heading (module msg n : List Char) :
    pyStrip (entryLine module msg) ≠ headingOf n := by
  obtain ⟨w, hw⟩ := pyStrip_entryLine module msg
  rw [hw, headingOf]
  intro h
  rw [show "### ".toList = '#' :: '#' :: '#' :: ' ' :: [] from rfl] at h
  simp at h

theorem entryLine_not_section (module msg : List Char) :
    startsWith "## [".toList (entryLine module msg) = false := by
  rw [entryLine]
  rfl

theorem entryLine_ne_nil (module msg : List Char) : entryLine module msg ≠ [] := by
  rw [entryLine]
  exact List.cons_ne_nil _ _

theorem entryLine_lineFree {module msg : List Char} (hm : lineFree module) (hg : lineFree msg) :
    lineFree (entryLine module msg) := by
  rw [entryLine, formatTotal]
  by_cases h : module ∈ MODULES
  · rw [if_pos h]
    exact lineFree_cons (by decide) (lineFree_cons (by decide)
      (lineFree_append (lineFree_append (lineFree_append (by decide) hm) (by decide))
        (lineFree_cons (by decide) hg)))
  · rw [if_neg h]
    exact lineFree_cons (by decide) (lineFree_cons (by decide)
      (lineFree_append (lineFree_append (lineFree_append (by decide) hm) (by decide))
        (lineFree_cons (by decide) hg)))

theorem entryLine_ne_sectionHeader (module msg version date : List Char) :
    entryLine module msg ≠ sectionHeaderOf version date := by
  rw [entryLine, sectionHeaderOf]
  intro h
  rw [show "## [".toList = '#' :: '#' :: ' ' :: '[' :: [] from rfl] at h
  simp at h

theorem kindName_cases {ct n : List Char} (hk : lookupKind ct = some n) :
    n = "Added".toList ∨ n = "Fixed".toList ∨ n = "Changed".toList ∨
      n = "Removed".toList := by
  rw [lookupKind] at hk
  by_cases h1 : ct = "add".toList
  · rw [if_pos h1] at hk
    injection hk with h
    exact Or.inl h.symm
  · rw [if_neg h1] at hk
    by_cases h2 : ct = "fix".toList
    · rw [if_pos h2] at hk
      injection hk with h
      exact Or.inr (Or.inl h.symm)
    · rw [if_neg h2] at hk
      by_cases h3 : ct = "change".toList
      · rw [if_pos h3] at hk
        injection hk with h
        exact Or.inr (Or.inr (Or.inl h.symm))
      · rw [if_neg h3] at hk
        by_cases h4 : ct = "remove".toList
        · rw [if_pos h4] at hk
          injection hk with h
          exact Or.inr (Or.inr (Or.inr h.symm))
        · rw [if_neg h4] at hk
          cases hk

theorem kindName_facts {ct n : List Char} (hk : lookupKind ct = some n) :
    lineFree n ∧ pyStrip (headingOf n) = headingOf n ∧
      startsWith "## [".toList (headingOf n) = false ∧
      headingOf n ≠ [] ∧ lineFree (headingOf n) := by
  rcases kindName_cases hk with h | h | h | h <;> subst h <;>
    exact ⟨by decide, by decide, by decide, by decide, by decide⟩

theorem headingOf_ne_sectionHeader (n version date : List Char) :
    headingOf n ≠ sectionHeaderOf version date := by
  rw [headingOf, sectionHeaderOf]
  intro h
  rw [show "### ".toList = '#' :: '#' :: '#' :: ' ' :: [] from rfl,
    show "## [".toList = '#' :: '#' :: ' ' :: '[' :: [] from rfl] at h
  simp at h

theorem headingOf_inj {n1 n2 : List Char} (h : headingOf n1 = headingOf n2) : n1 = n2 := by
  rw [headingOf, headingOf] at h
  exact List.append_cancel_left h

theorem sectionHeaderOf_lineFree {version date : List Char} (hv : lineFree version)
    (hd : lineFree date) : lineFree (sectionHeaderOf version date) := by
  rw [sectionHeaderOf]
  exact lineFree_append (lineFree_append (lineFree_append (by decide) hv) (by decide)) hd

theorem sectionHeaderOf_ne_nil (version date : List Char) :
    sectionHeaderOf version date ≠ [] := by
  rw [sectionHeaderOf]
  simp

/-! ### The three insertion cases of the merge engine -/

theorem merge_new_section (version today ct n module msg content : List Char)
    (hk : lookupKind ct = some n)
    (hni : isSubstr (sectionHeaderOf version today) content = false) :
    updateChangelog version today ct module msg (some content) =
      some (content ++ '\n' :: (sectionHeaderOf version today ++ '\n' ::
        (headingOf n ++ '\n' :: ('-' :: ' ' :: formatTotal module msg ++ ['\n'])))) := by
  rw [updateChangelog, hk]
  simp only [ensureChangelogExists]
  rw [if_pos hni]

theorem merge_new_section_lines (version today n module msg content : List Char)
    (hv : lineFree version) (hd : lineFree today) (hm : lineFree module)
    (hg : lineFree msg) (hn : lineFree n) :
    splitLines (content ++ '\n' :: (sectionHeaderOf version today ++ '\n' ::
      (headingOf n ++ '\n' :: ('-' :: ' ' :: formatTotal module msg ++ ['\n'])))) =
    splitLines (content ++ ['\n']) ++
      [sectionHeaderOf version today, headingOf n, entryLine module msg] := by
  rw [splitLines_split]
  congr 1
  rw [splitLines_append_newline (sectionHeaderOf_lineFree hv hd)]
  congr 1
  have hCH : lineFree (headingOf n) := by
    rw [headingOf]
    exact lineFree_append (by decide) hn
  rw [splitLines_append_newline hCH]
  congr 1
  rw [show ('-' :: ' ' :: formatTotal module msg ++ ['\n']) =
    entryLine module msg ++ '\n' :: [] by rw [entryLine]]
  rw [splitLines_append_newline (entryLine_lineFree hm hg), splitLines_nil]

theorem merge_append_heading (version today ct n module msg : List Char)
    (pre tail : List (List Char)) (content : List Char)
    (hk : lookupKind ct = some n)
    (hsplit : splitLines content = pre ++ sectionHeaderOf version today :: tail)
    (hpre : ∀ l ∈ pre, l ≠ sectionHeaderOf version today)
    (htail : ∀ l ∈ tail, startsWith "## [".toList l = false ∧ pyStrip l ≠ headingOf n) :
    updateChangelog version today ct module msg (some content) =
      some (joinLines ((pre ++ sectionHeaderOf version today :: tail) ++
        [headingOf n ++ '\n' :: '-' :: ' ' :: formatTotal module msg])) := by
  have hmem : sectionHeaderOf version today ∈ splitLines content := by
    rw [hsplit]
    exact List.mem_append.mpr (Or.inr (List.mem_cons_self _ _))
  obtain ⟨a, b, hab⟩ := mem_splitLines_decomp hmem
  have hsub : isSubstr (sectionHeaderOf version today) content = true := by
    rw [hab]
    exact isSubstr_of_decomp _ a b
  rw [updateChangelog, hk]
  simp only [ensureChangelogExists]
  rw [if_neg (by rw [hsub]; exact Ne.symm Bool.false_ne_true)]
  rw [hsplit, pyIndex_append_first tail hpre]
  simp only []
  have hdrop : (pre ++ sectionHeaderOf version today :: tail).drop (pre.length + 1) = tail := by
    rw [show pre ++ sectionHeaderOf version today :: tail =
      (pre ++ [sectionHeaderOf version today]) ++ tail by simp]
    exact List.drop_left' (by simp)
  rw [hdrop, scanFrom_exhaust (pre.length + 1) htail]
  simp only []
  rw [if_neg (show ¬(false = true) by simp)]
  rw [pyInsert_past_end _ (by simp [List.length_append]; omega)]

theorem merge_insert_entry (version today ct n module msg : List Char)
    (pre mid : List (List Char)) (target : List Char) (run rest : List (List Char))
    (content : List Char)
    (hk : lookupKind ct = some n)
    (hsplit : splitLines content =
      pre ++ sectionHeaderOf version today :: (mid ++ target :: (run ++ rest)))
    (hpre : ∀ l ∈ pre, l ≠ sectionHeaderOf version today)
    (hmid : ∀ l ∈ mid, startsWith "## [".toList l = false ∧ pyStrip l ≠ headingOf n)
    (ht1 : startsWith "## [".toList target = false)
    (ht2 : pyStrip target = headingOf n)
    (hrun : ∀ l ∈ run, isEntryish l = true)
    (hrest : rest = [] ∨ ∃ r0 rs, rest = r0 :: rs ∧ isEntryish r0 = false) :
    updateChangelog version today ct module msg (some content) =
      some (joinLines (pre ++ sectionHeaderOf version today ::
        (mid ++ target :: (run ++ entryLine module msg :: rest)))) := by
  have hmem : sectionHeaderOf version today ∈ splitLines content := by
    rw [hsplit]
    exact List.mem_append.mpr (Or.inr (List.mem_cons_self _ _))
  obtain ⟨a, b, hab⟩ := mem_splitLines_decomp hmem
  have hsub : isSubstr (sectionHeaderOf version today) content = true := by
    rw [hab]
    exact isSubstr_of_decomp _ a b
  rw [updateChangelog, hk]
  simp only [ensureChangelogExists]
  rw [if_neg (by rw [hsub]; exact Ne.symm Bool.false_ne_true)]
  rw [hsplit, pyIndex_append_first (mid ++ target :: (run ++ rest)) hpre]
  simp only []
  have hdrop1 : (pre ++ sectionHeaderOf version today :: (mid ++ target :: (run ++ rest))).drop
      (pre.length + 1) = mid ++ target :: (run ++ rest) := by
    rw [show pre ++ sectionHeaderOf version today :: (mid ++ target :: (run ++ rest)) =
      (pre ++ [sectionHeaderOf version today]) ++ (mid ++ target :: (run ++ rest)) by simp]
    exact List.drop_left' (by simp)
  rw [hdrop1, scanFrom_found ht1 ht2 (run ++ rest) (pre.length + 1) hmid]
  simp only []
  rw [if_pos trivial]
  have hdrop2 : (pre ++ sectionHeaderOf version today :: (mid ++ target :: (run ++ rest))).drop
      (pre.length + 1 + mid.length + 1) = run ++ rest := by
    rw [show pre ++ sectionHeaderOf version today :: (mid ++ target :: (run ++ rest)) =
      ((pre ++ [sectionHeaderOf version today]) ++ mid ++ [target]) ++ (run ++ rest) by simp]
    exact List.drop_left' (by simp; omega)
  rw [hdrop2]
  have hscan2 : entryScan (run ++ rest) (pre.length + 1 + mid.length + 1) =
      pre.length + 1 + mid.length + 1 + run.length := by
    rcases hrest with h | ⟨r0, rs, hr, h0⟩
    · rw [h, List.append_nil]
      exact entryScan_exhaust _ hrun
    · rw [hr]
      exact entryScan_stop h0 rs _ hrun
  rw [hscan2]
  have hins : pyInsert (pre ++ sectionHeaderOf version today :: (mid ++ target :: (run ++ rest)))
      (pre.length + 1 + mid.length + 1 + run.length)
      ('-' :: ' ' :: formatTotal module msg) =
      ((pre ++ [sectionHeaderOf version today]) ++ mid ++ [target] ++ run) ++
        ('-' :: ' ' :: formatTotal module msg) :: rest := by
    rw [show pre ++ sectionHeaderOf version today :: (mid ++ target :: (run ++ rest)) =
      ((pre ++ [sectionHeaderOf version today]) ++ mid ++ [target] ++ run) ++ rest by simp]
    rw [show pre.length + 1 + mid.length + 1 + run.length =
      ((pre ++ [sectionHeaderOf version today]) ++ mid ++ [target] ++ run).length by
        simp; omega]
    exact pyInsert_at_append _ rest _
  rw [hins]
  rw [show ('-' :: ' ' :: formatTotal module msg) = entryLine module msg from rfl]
  congr 1
  simp

/-- Two merges with different kinds into an initially absent section:
the first creates the section, the second appends its heading block at
the end of the section. -/
theorem two_fresh_merges (version today ct1 ct2 n1 n2 module msg1 msg2 content : List Char)
    (hk1 : lookupKind ct1 = some n1) (hk2 : lookupKind ct2 = some n2) (hne : n1 ≠ n2)
    (hv : lineFree version) (hd : lineFree today) (hm : lineFree module)
    (h1 : lineFree msg1) (h2 : lineFree msg2)
    (hni : isSubstr (sectionHeaderOf version today) content = false) :
    ∃ doc1 doc2,
      updateChangelog version today ct1 module msg1 (some content) = some doc1 ∧
      updateChangelog version today ct2 module msg2 (some doc1) = some doc2 ∧
      splitLines doc2 = splitLines (content ++ ['\n']) ++
        [sectionHeaderOf version today, headingOf n1, entryLine module msg1,
         headingOf n2, entryLine module msg2] := by
  obtain ⟨hn1free, hstrip1, hsw1, hnee1, hCH1free⟩ := kindName_facts hk1
  obtain ⟨hn2free, hstrip2, hsw2, hnee2, hCH2free⟩ := kindName_facts hk2
  have hstep1 := merge_new_section version today ct1 n1 module msg1 content hk1 hni
  have hsplit1 : splitLines (content ++ '\n' :: (sectionHeaderOf version today ++ '\n' ::
      (headingOf n1 ++ '\n' :: ('-' :: ' ' :: formatTotal module msg1 ++ ['\n'])))) =
      splitLines (content ++ ['\n']) ++ sectionHeaderOf version today ::
        [headingOf n1, entryLine module msg1] := by
    rw [merge_new_section_lines version today n1 module msg1 content hv hd hm h1 hn1free]
  have hpre2 : ∀ l ∈ splitLines (content ++ ['\n']), l ≠ sectionHeaderOf version today :=
    ne_header_of_mem_concat (sectionHeaderOf_lineFree hv hd)
      (sectionHeaderOf_ne_nil version today) hni
  have htail2 : ∀ l ∈ [headingOf n1, entryLine module msg1],
      startsWith "## [".toList l = false ∧ pyStrip l ≠ headingOf n2 := by
    intro l hl
    rcases List.mem_cons.mp hl with hh | hl2
    · subst hh
      exact ⟨hsw1, by rw [hstrip1]; exact fun hh2 => hne (headingOf_inj hh2)⟩
    · rcases List.mem_cons.mp hl2 with hh | hl3
      · subst hh
        exact ⟨entryLine_not_section module msg1,
          pyStrip_entryLine_ne_heading module msg1 n2⟩
      · cases hl3
  have hstep2 := merge_append_heading version today ct2 n2 module msg2
    (splitLines (content ++ ['\n'])) [headingOf n1, entryLine module msg1] _ hk2
    hsplit1 hpre2 htail2
  refine ⟨_, _, hstep1, hstep2, ?_⟩
  rw [show (headingOf n2 ++ '\n' :: '-' :: ' ' :: formatTotal module msg2) =
      headingOf n2 ++ '\n' :: entryLine module msg2 from rfl]
  rw [joinLines_embed]
  rw [splitLines_joinLines]
  · simp
  · intro l hl
    have hl2 : l ∈ splitLines (content ++ ['\n']) ∨ l = sectionHeaderOf version today ∨
        l = headingOf n1 ∨ l = entryLine module msg1 ∨ l = headingOf n2 ∨
        l = entryLine module msg2 := by
      simpa using hl
    rcases hl2 with hl2 | hl2 | hl2 | hl2 | hl2 | hl2
    · exact lineFree_of_mem_splitLines hl2
    · exact hl2 ▸ sectionHeaderOf_lineFree hv hd
    · exact hl2 ▸ hCH1free
    · exact hl2 ▸ entryLine_lineFree hm h1
    · exact hl2 ▸ hCH2free
    · exact hl2 ▸ entryLine_lineFree hm h2
  · simp
  · rw [show (splitLines (content ++ ['\n']) ++
      sectionHeaderOf version today :: [headingOf n1, entryLine module msg1]) ++
      [headingOf n2, entryLine module msg2] =
      ((splitLines (content ++ ['\n']) ++
        sectionHeaderOf version today :: [headingOf n1, entryLine module msg1]) ++
        [headingOf n2]) ++ [entryLine module msg2] by simp]
    rw [List.getLast?_concat]
    intro hcon
    injection hcon with hcon2
    exact entryLine_ne_nil module msg2 hcon2

/-- Folding further messages of the same kind into an existing section
whose heading block ends the document appends each entry at the end of
the entry run, in call order. -/
theorem mergeSeq_entries (version today ct n module : List Char)
    (hk : lookupKind ct = some n)
    (hv : lineFree version) (hd : lineFree today) (hm : lineFree module) :
    ∀ (ms : List (List Char)), (∀ m ∈ ms, lineFree m) →
    ∀ (pre es : List (List Char)) (doc : List Char),
    (∀ l ∈ pre, l ≠ sectionHeaderOf version today) →
    (∀ l ∈ pre, lineFree l) →
    es ≠ [] →
    (∀ e ∈ es, ∃ g, lineFree g ∧ e = entryLine module g) →
    splitLines doc = pre ++ sectionHeaderOf version today :: headingOf n :: es →
    ∃ docF, mergeSeq version today ct module ms (some doc) = some (some docF) ∧
      splitLines docF = pre ++ sectionHeaderOf version today :: headingOf n ::
        (es ++ ms.map (entryLine module)) := by
  intro ms
  induction ms with
  | nil =>
    intro _ pre es doc hpre hpreNL hesne hes hdoc
    exact ⟨doc, rfl, by rw [hdoc, List.map_nil, List.append_nil]⟩
  | cons m ms ih =>
    intro hms pre es doc hpre hpreNL hesne hes hdoc
    obtain ⟨hnfree, hstrip, hsw, hnee, hCHfree⟩ := kindName_facts hk
    have hmfree : lineFree m := hms m (List.mem_cons_self m ms)
    have hsplit0 : splitLines doc =
        pre ++ sectionHeaderOf version today :: ([] ++ headingOf n :: (es ++ [])) := by
      rw [hdoc]
      simp
    have hrun : ∀ l ∈ es, isEntryish l = true := by
      intro l hl
      obtain ⟨g, -, hg⟩ := hes l hl
      rw [hg]
      exact entryLine_entryish module g
    have hstep := merge_insert_entry version today ct n module m
      pre [] (headingOf n) es [] doc hk hsplit0 hpre
      (fun l hl => absurd hl (List.not_mem_nil l)) hsw hstrip hrun (Or.inl rfl)
    have hstep2 : updateChangelog version today ct module m (some doc) =
        some (joinLines (pre ++ sectionHeaderOf version today :: headingOf n ::
          (es ++ [entryLine module m]))) := by
      rw [hstep]
      simp
    have hdocNew : splitLines (joinLines (pre ++ sectionHeaderOf version today ::
        headingOf n :: (es ++ [entryLine module m]))) =
        pre ++ sectionHeaderOf version today :: headingOf n ::
          (es ++ [entryLine module m]) := by
      apply splitLines_joinLines
      · intro l hl
        have hl2 : l ∈ pre ∨ l = sectionHeaderOf version today ∨ l = headingOf n ∨
            l ∈ es ∨ l = entryLine module m := by
          simpa using hl
        rcases hl2 with hl2 | hl2 | hl2 | hl2 | hl2
        · exact hpreNL l hl2
        · exact hl2 ▸ sectionHeaderOf_lineFree hv hd
        · exact hl2 ▸ hCHfree
        · obtain ⟨g, hg1, hg2⟩ := hes l hl2
          exact hg2 ▸ entryLine_lineFree hm hg1
        · exact hl2 ▸ entryLine_lineFree hm hmfree
      · simp
      · rw [show pre ++ sectionHeaderOf version today :: headingOf n ::
          (es ++ [entryLine module m]) =
          (pre ++ sectionHeaderOf version today :: headingOf n :: es) ++
            [entryLine module m] by simp]
        rw [List.getLast?_concat]
        intro hcon
        injection hcon with hcon2
        exact entryLine_ne_nil module m hcon2
    obtain ⟨docF, hseq, hsplitF⟩ := ih (fun g hg => hms g (List.mem_cons_of_mem m hg))
      pre (es ++ [entryLine module m]) _ hpre hpreNL (by simp)
      (by
        intro e he
        rcases List.mem_append.mp he with he1 | he2
        · exact hes e he1
        · have : e = entryLine module m := by simpa using he2
          exact ⟨m, hmfree, this⟩)
      hdocNew
    refine ⟨docF, ?_, ?_⟩
    · rw [mergeSeq, hstep2]
      exact hseq
    · rw [hsplitF]
      simp

/-! ### Claim theorems -/

/-- C1: merging a single change (add, "Utils", "support X") at version
1.9.0 on 2025-01-01 when no changelog file exists produces exactly the
title line, a blank separator, the section header, the heading and the
single entry, with one trailing newline. -/
theorem merge_fresh_file_exact :
    updateChangelog "1.9.0".toList "2025-01-01".toList "add".toList "Utils".toList
      "support X".toList none =
      some ("# Changelog\n\n## [1.9.0] - 2025-01-01\n### Added\n- **[ Utils ]** support X\n".toList) := by
  rfl

/-- C3 counterexample: with a section containing only a Fixed block,
merging kind add appends the new Added heading at the end of the
document, so the line immediately after the section header line (index 3;
the header is at index 2) is still the old "### Fixed" heading, not the
newly inserted one, contradicting insertion as the first heading block. -/
theorem heading_not_inserted_first_counterexample :
    updateChangelog "1.9.0".toList "2025-01-01".toList "add".toList "M".toList "m2".toList
      (some "# Changelog\n\n## [1.9.0] - 2025-01-01\n### Fixed\n- old\n".toList) =
      some "# Changelog\n\n## [1.9.0] - 2025-01-01\n### Fixed\n- old\n### Added\n- **( M )** m2".toList ∧
    (splitLines "# Changelog\n\n## [1.9.0] - 2025-01-01\n### Fixed\n- old\n### Added\n- **( M )** m2".toList).get? 3 ≠
      some ("### Added".toList) ∧
    (splitLines "# Changelog\n\n## [1.9.0] - 2025-01-01\n### Fixed\n- old\n### Added\n- **( M )** m2".toList).get? 3 =
      some ("### Fixed".toList) := by
  refine ⟨by rfl, by decide, by decide⟩

/-- C6 counterexample: when the section header text occurs inside a longer
line rather than as a full line, the merge takes the existing-section
branch but lines.index finds no matching full line and raises ValueError,
modelled as none. -/
theorem merge_raises_on_embedded_header :
    updateChangelog "1.9.0".toList "2025-01-01".toList "add".toList "M".toList "hi".toList
      (some "x ## [1.9.0] - 2025-01-01 y".toList) = none := by
  rfl

/-- C3 amended: when the matching dated section exists with no heading
block of the requested kind and extends to the end of the document, the
merge inserts the new heading line and its single entry line at the point
where the forward scan stopped, i.e. appended at the end of the document
after all pre-existing heading blocks, not immediately after the section
header line. -/
theorem new_heading_appended_at_section_end
    (version today ct n module msg : List Char)
    (pre tail : List (List Char)) (content : List Char)
    (hk : lookupKind ct = some n)
    (hsplit : splitLines content = pre ++ sectionHeaderOf version today :: tail)
    (hpre : ∀ l ∈ pre, l ≠ sectionHeaderOf version today)
    (htail : ∀ l ∈ tail, startsWith "## [".toList l = false ∧ pyStrip l ≠ headingOf n) :
    updateChangelog version today ct module msg (some content) =
      some (joinLines ((pre ++ sectionHeaderOf version today :: tail) ++
        [headingOf n, entryLine module msg])) := by
  rw [merge_append_heading version today ct n module msg pre tail content hk hsplit
    hpre htail]
  rw [show (headingOf n ++ '\n' :: '-' :: ' ' :: formatTotal module msg) =
    headingOf n ++ '\n' :: entryLine module msg from rfl]
  rw [joinLines_embed]

/-- C6 amended: the merge is total whenever the section header text either
does not occur in the document at all or occurs as a full line; in the
remaining case, where the header text occurs only inside a longer line,
the line lookup raises ValueError as the counterexample shows. -/
theorem merge_total_unless_header_embedded
    (version today ct n module msg content : List Char)
    (hk : lookupKind ct = some n)
    (h : isSubstr (sectionHeaderOf version today) content = false ∨
      sectionHeaderOf version today ∈ splitLines content) :
    ∃ out, updateChangelog version today ct module msg (some content) = some out := by
  rcases h with h | h
  · exact ⟨_, merge_new_section version today ct n module msg content hk h⟩
  · obtain ⟨a, b, hab⟩ := mem_splitLines_decomp h
    have hsub : isSubstr (sectionHeaderOf version today) content = true := by
      rw [hab]
      exact isSubstr_of_decomp _ a b
    obtain ⟨i, hi⟩ := pyIndex_some_of_mem h
    rw [updateChangelog, hk]
    simp only [ensureChangelogExists]
    rw [if_neg (by rw [hsub]; exact Ne.symm Bool.false_ne_true)]
    rw [hi]
    simp only []
    split
    · exact ⟨_, rfl⟩
    · exact ⟨_, rfl⟩

/-- C2: for any version and date (newline-free), starting from a document
without that section, the first merge creates exactly one section header
line and a second merge with a different kind reuses the section, leaving
exactly one header line and a section holding both heading blocks. -/
theorem section_header_unique_two_merges
    (version today ct1 ct2 n1 n2 module msg1 msg2 content : List Char)
    (hk1 : lookupKind ct1 = some n1) (hk2 : lookupKind ct2 = some n2) (hne : n1 ≠ n2)
    (hv : lineFree version) (hd : lineFree today) (hm : lineFree module)
    (h1 : lineFree msg1) (h2 : lineFree msg2)
    (hni : isSubstr (sectionHeaderOf version today) content = false) :
    ∃ doc1 doc2,
      updateChangelog version today ct1 module msg1 (some content) = some doc1 ∧
      updateChangelog version today ct2 module msg2 (some doc1) = some doc2 ∧
      splitLines doc2 = splitLines (content ++ ['\n']) ++
        [sectionHeaderOf version today, headingOf n1, entryLine module msg1,
         headingOf n2, entryLine module msg2] ∧
      countLine (sectionHeaderOf version today) (splitLines doc2) = 1 := by
  obtain ⟨doc1, doc2, e1, e2, eshape⟩ := two_fresh_merges version today ct1 ct2 n1 n2
    module msg1 msg2 content hk1 hk2 hne hv hd hm h1 h2 hni
  refine ⟨doc1, doc2, e1, e2, eshape, ?_⟩
  rw [eshape, countLine_append]
  rw [countLine_eq_zero (ne_header_of_mem_concat (sectionHeaderOf_lineFree hv hd)
    (sectionHeaderOf_ne_nil version today) hni)]
  rw [countLine, if_pos rfl]
  rw [countLine, if_neg (headingOf_ne_sectionHeader n1 version today)]
  rw [countLine, if_neg (entryLine_ne_sectionHeader module msg1 version today)]
  rw [countLine, if_neg (headingOf_ne_sectionHeader n2 version today)]
  rw [countLine, if_neg (entryLine_ne_sectionHeader module msg2 version today)]
  rw [show countLine (sectionHeaderOf version today) [] = 0 from rfl]

/-- C4: merging kind fix and then kind add into the same fresh section
yields a document whose heading line "### Fixed" appears on an earlier
line than "### Added". -/
theorem fixed_above_added_two_merges
    (version today module msg1 msg2 content : List Char)
    (hv : lineFree version) (hd : lineFree today) (hm : lineFree module)
    (h1 : lineFree msg1) (h2 : lineFree msg2)
    (hni : isSubstr (sectionHeaderOf version today) content = false) :
    ∃ doc1 doc2,
      updateChangelog version today "fix".toList module msg1 (some content) = some doc1 ∧
      updateChangelog version today "add".toList module msg2 (some doc1) = some doc2 ∧
      (splitLines (content ++ ['\n'])).length + 1 <
        (splitLines (content ++ ['\n'])).length + 3 ∧
      (splitLines doc2).get? ((splitLines (content ++ ['\n'])).length + 1) =
        some ("### Fixed".toList) ∧
      (splitLines doc2).get? ((splitLines (content ++ ['\n'])).length + 3) =
        some ("### Added".toList) := by
  obtain ⟨doc1, doc2, e1, e2, eshape⟩ := two_fresh_merges version today "fix".toList
    "add".toList "Fixed".toList "Added".toList module msg1 msg2 content rfl rfl
    (by decide) hv hd hm h1 h2 hni
  refine ⟨doc1, doc2, e1, e2, by omega, ?_, ?_⟩
  · rw [eshape, List.get?_append_right (by omega)]
    rw [show (splitLines (content ++ ['\n'])).length + 1 -
      (splitLines (content ++ ['\n'])).length = 1 from by omega]
    rfl
  · rw [eshape, List.get?_append_right (by omega)]
    rw [show (splitLines (content ++ ['\n'])).length + 3 -
      (splitLines (content ++ ['\n'])).length = 3 from by omega]
    rfl

/-- C5: when the section and the heading block both exist, the new entry
line is inserted at the end of the contiguous run of entry lines and blank
lines after the heading, before the first line that is neither (first
conjunct); consequently a sequence of merges of the same kind lists its
entries in call order, with no reordering and no deduplication (second
conjunct). -/
theorem entry_appended_at_run_end_in_order :
    (∀ (version today ct n module msg : List Char) (pre mid : List (List Char))
        (target : List Char) (run rest : List (List Char)) (content : List Char),
      lookupKind ct = some n →
      splitLines content =
        pre ++ sectionHeaderOf version today :: (mid ++ target :: (run ++ rest)) →
      (∀ l ∈ pre, l ≠ sectionHeaderOf version today) →
      (∀ l ∈ mid, startsWith "## [".toList l = false ∧ pyStrip l ≠ headingOf n) →
      startsWith "## [".toList target = false →
      pyStrip target = headingOf n →
      (∀ l ∈ run, isEntryish l = true) →
      (rest = [] ∨ ∃ r0 rs, rest = r0 :: rs ∧ isEntryish r0 = false) →
      updateChangelog version today ct module msg (some content) =
        some (joinLines (pre ++ sectionHeaderOf version today ::
          (mid ++ target :: (run ++ entryLine module msg :: rest))))) ∧
    (∀ (version today ct n module m0 : List Char) (ms : List (List Char))
        (content : List Char),
      lookupKind ct = some n →
      lineFree version → lineFree today → lineFree module →
      lineFree m0 → (∀ m ∈ ms, lineFree m) →
      isSubstr (sectionHeaderOf version today) content = false →
      ∃ docF, mergeSeq version today ct module (m0 :: ms) (some content) =
          some (some docF) ∧
        splitLines docF = splitLines (content ++ ['\n']) ++
          sectionHeaderOf version today :: headingOf n ::
            (m0 :: ms).map (entryLine module)) := by
  constructor
  · intro version today ct n module msg pre mid target run rest content hk hsplit
      hpre hmid ht1 ht2 hrun hrest
    exact merge_insert_entry version today ct n module msg pre mid target run rest
      content hk hsplit hpre hmid ht1 ht2 hrun hrest
  · intro version today ct n module m0 ms content hk hv hd hm h0 hms hni
    have hstep1 := merge_new_section version today ct n module m0 content hk hni
    obtain ⟨hnfree, -, -, -, -⟩ := kindName_facts hk
    have hlines1 := merge_new_section_lines version today n module m0 content
      hv hd hm h0 hnfree
    obtain ⟨docF, hseq, hshape⟩ := mergeSeq_entries version today ct n module hk
      hv hd hm ms hms (splitLines (content ++ ['\n'])) [entryLine module m0] _
      (ne_header_of_mem_concat (sectionHeaderOf_lineFree hv hd)
        (sectionHeaderOf_ne_nil version today) hni)
      (fun l hl => lineFree_of_mem_splitLines hl)
      (by simp)
      (by
        intro e he
        exact ⟨m0, h0, by simpa using he⟩)
      hlines1
    refine ⟨docF, ?_, ?_⟩
    · rw [mergeSeq, hstep1]
      exact hseq
    · rw [hshape]
      simp

/-- C8: an invocation with fewer than three argv entries or an
unrecognised change kind exits non-zero after printing the usage message
with the changelog untouched (first conjunct); an invocation whose editor
collaborator returns an empty message exits non-zero with the changelog
untouched (second conjunct). -/
theorem invalid_args_or_empty_message_no_mutation :
    (∀ (argv : List (List Char)) (editorMsg today : List Char)
        (file : Option (List Char)),
      (argv.length < 3 ∨ lookupKind (argv.getD 1 []) = none) →
      (mainRun argv editorMsg today file).exitCode ≠ 0 ∧
      (mainRun argv editorMsg today file).usagePrinted = true ∧
      (mainRun argv editorMsg today file).file = file) ∧
    (∀ (argv : List (List Char)) (today : List Char) (file : Option (List Char)),
      (mainRun argv [] today file).exitCode ≠ 0 ∧
      (mainRun argv [] today file).file = file) := by
  constructor
  · intro argv editorMsg today file h
    rw [mainRun, if_pos h]
    exact ⟨show InvalidArgErrorExit ≠ 0 by decide, rfl, rfl⟩
  · intro argv today file
    rw [mainRun]
    by_cases h : argv.length < 3 ∨ lookupKind (argv.getD 1 []) = none
    · rw [if_pos h]
      exact ⟨show InvalidArgErrorExit ≠ 0 by decide, rfl⟩
    · rw [if_neg h, if_pos rfl]
      exact ⟨show ErrorExit ≠ 0 by decide, rfl⟩

/-- C9: the entry formatter is a pure total function rendering the bracket
tag exactly when the module name is one of the recognised names, passing
the message through verbatim; in particular Types gets the bracket tag and
Scripts the parenthesis tag. -/
theorem entry_formatter_tag_selection :
    (∀ module msg : List Char, module ∈ MODULES →
      entryLine module msg = "- **[ ".toList ++ module ++ (" ]** ".toList ++ msg)) ∧
    (∀ module msg : List Char, module ∉ MODULES →
      entryLine module msg = "- **( ".toList ++ module ++ (" )** ".toList ++ msg)) ∧
    (∀ msg : List Char,
      entryLine "Types".toList msg = "- **[ Types ]** ".toList ++ msg) ∧
    (∀ msg : List Char,
      entryLine "Scripts".toList msg = "- **( Scripts )** ".toList ++ msg) := by
  have e1 : "**[ ".toList = ['*', '*', '[', ' '] := rfl
  have e2 : " ]**".toList = [' ', ']', '*', '*'] := rfl
  have e3 : "- **[ ".toList = ['-', ' ', '*', '*', '[', ' '] := rfl
  have e4 : " ]** ".toList = [' ', ']', '*', '*', ' '] := rfl
  have e5 : "**( ".toList = ['*', '*', '(', ' '] := rfl
  have e6 : " )**".toList = [' ', ')', '*', '*'] := rfl
  have e7 : "- **( ".toList = ['-', ' ', '*', '*', '(', ' '] := rfl
  have e8 : " )** ".toList = [' ', ')', '*', '*', ' '] := rfl
  refine ⟨?_, ?_, ?_, ?_⟩
  · intro module msg h
    rw [entryLine, formatTotal, if_pos h, e1, e2, e3, e4]
    simp
  · intro module msg h
    rw [entryLine, formatTotal, if_neg h, e5, e6, e7, e8]
    simp
  · intro msg
    rfl
  · intro msg
    rfl

/-- C10: for every invocation passing the argument check, the module
string is argv entry 2 concatenated with a colon-space and the
comma-joined remaining arguments; it always contains the colon-space
substring, so it never equals a recognised module name and every entry
created through the command line carries the parenthesis tag. -/
theorem cli_module_never_recognized (argv : List (List Char)) (h3 : 3 ≤ argv.length) :
    cliModule argv =
      argv.getD 2 [] ++ ':' :: ' ' :: joinWith (',' :: [' ']) (argv.drop 3) ∧
    isSubstr (':' :: [' ']) (cliModule argv) = true ∧
    cliModule argv ∉ MODULES ∧
    (∀ msg : List Char, formatTotal (cliModule argv) msg =
      "**( ".toList ++ cliModule argv ++ (" )**".toList ++ ' ' :: msg)) := by
  have hgt : argv.length > 2 := by omega
  have hcm : cliModule argv =
      argv.getD 2 [] ++ ':' :: ' ' :: joinWith (',' :: [' ']) (argv.drop 3) := by
    rw [cliModule, if_pos hgt]
  have hnotmem : cliModule argv ∉ MODULES := by
    intro hmem
    have hcolon : (':' : Char) ∈ cliModule argv := by
      rw [hcm]
      exact List.mem_append.mpr (Or.inr (List.mem_cons_self _ _))
    have hM : MODULES = ["Types".toList, "Utils".toList, "FuncTools".toList] := rfl
    rw [hM] at hmem
    rcases List.mem_cons.mp hmem with h | hmem
    · rw [h] at hcolon
      revert hcolon
      decide
    · rcases List.mem_cons.mp hmem with h | hmem
      · rw [h] at hcolon
        revert hcolon
        decide
      · rcases List.mem_cons.mp hmem with h | hmem
        · rw [h] at hcolon
          revert hcolon
          decide
        · cases hmem
  refine ⟨hcm, ?_, hnotmem, ?_⟩
  · rw [hcm]
    rw [show argv.getD 2 [] ++ ':' :: ' ' :: joinWith (',' :: [' ']) (argv.drop 3) =
      argv.getD 2 [] ++ (':' :: [' ']) ++ joinWith (',' :: [' ']) (argv.drop 3) by simp]
    exact isSubstr_of_decomp _ _ _
  · intro msg
    rw [formatTotal, if_neg hnotmem]
    simp

/-! ### Witnesses instantiating the hypotheses of the claim theorems -/

theorem section_header_unique_two_merges_witness :
    ∃ doc1 doc2,
      updateChangelog "1.9.0".toList "2025-01-01".toList "add".toList "Utils".toList
        "one".toList (some ("# Changelog\n".toList)) = some doc1 ∧
      updateChangelog "1.9.0".toList "2025-01-01".toList "fix".toList "Utils".toList
        "two".toList (some doc1) = some doc2 ∧
      splitLines doc2 = splitLines ("# Changelog\n".toList ++ ['\n']) ++
        [sectionHeaderOf "1.9.0".toList "2025-01-01".toList,
         headingOf "Added".toList, entryLine "Utils".toList "one".toList,
         headingOf "Fixed".toList, entryLine "Utils".toList "two".toList] ∧
      countLine (sectionHeaderOf "1.9.0".toList "2025-01-01".toList)
        (splitLines doc2) = 1 :=
  section_header_unique_two_merges "1.9.0".toList "2025-01-01".toList "add".toList
    "fix".toList "Added".toList "Fixed".toList "Utils".toList "one".toList
    "two".toList "# Changelog\n".toList rfl rfl (by decide) (by decide) (by decide)
    (by decide) (by decide) (by decide) (by decide)

theorem new_heading_appended_at_section_end_witness :
    updateChangelog "1.9.0".toList "2025-01-01".toList "add".toList "M".toList
      "m2".toList
      (some "# Changelog\n\n## [1.9.0] - 2025-01-01\n### Fixed\n- old\n".toList) =
      some (joinLines ((["# Changelog".toList, ([] : List Char)] ++
        sectionHeaderOf "1.9.0".toList "2025-01-01".toList ::
          ["### Fixed".toList, "- old".toList]) ++
        [headingOf "Added".toList, entryLine "M".toList "m2".toList])) :=
  new_heading_appended_at_section_end "1.9.0".toList "2025-01-01".toList
    "add".toList "Added".toList "M".toList "m2".toList
    ["# Changelog".toList, ([] : List Char)] ["### Fixed".toList, "- old".toList]
    "# Changelog\n\n## [1.9.0] - 2025-01-01\n### Fixed\n- old\n".toList
    rfl (by decide) (by decide) (by decide)

theorem fixed_above_added_two_merges_witness :
    ∃ doc1 doc2,
      updateChangelog "1.9.0".toList "2025-01-01".toList "fix".toList "M".toList
        "a".toList (some ("# Changelog\n".toList)) = some doc1 ∧
      updateChangelog "1.9.0".toList "2025-01-01".toList "add".toList "M".toList
        "b".toList (some doc1) = some doc2 ∧
      (splitLines ("# Changelog\n".toList ++ ['\n'])).length + 1 <
        (splitLines ("# Changelog\n".toList ++ ['\n'])).length + 3 ∧
      (splitLines doc2).get? ((splitLines ("# Changelog\n".toList ++ ['\n'])).length + 1) =
        some ("### Fixed".toList) ∧
      (splitLines doc2).get? ((splitLines ("# Changelog\n".toList ++ ['\n'])).length + 3) =
        some ("### Added".toList) :=
  fixed_above_added_two_merges "1.9.0".toList "2025-01-01".toList "M".toList
    "a".toList "b".toList "# Changelog\n".toList (by decide) (by decide) (by decide)
    (by decide) (by decide) (by decide)

theorem entry_appended_at_run_end_in_order_witness :
    updateChangelog "1.9.0".toList "2025-01-01".toList "add".toList "Utils".toList
      "more".toList
      (some "# Changelog\n\n## [1.9.0] - 2025-01-01\n### Added\n- **[ Utils ]** support X\n".toList) =
      some (joinLines (["# Changelog".toList, ([] : List Char)] ++
        sectionHeaderOf "1.9.0".toList "2025-01-01".toList ::
          ([] ++ "### Added".toList ::
            (["- **[ Utils ]** support X".toList] ++
              entryLine "Utils".toList "more".toList :: [])))) ∧
    (∃ docF, mergeSeq "1.9.0".toList "2025-01-01".toList "add".toList "M".toList
        ["a".toList, "b".toList] (some ("# Changelog\n".toList)) = some (some docF) ∧
      splitLines docF = splitLines ("# Changelog\n".toList ++ ['\n']) ++
        sectionHeaderOf "1.9.0".toList "2025-01-01".toList ::
          headingOf "Added".toList ::
            (["a".toList, "b".toList].map (entryLine "M".toList))) :=
  ⟨entry_appended_at_run_end_in_order.1 "1.9.0".toList "2025-01-01".toList
    "add".toList "Added".toList "Utils".toList "more".toList
    ["# Changelog".toList, ([] : List Char)] [] "### Added".toList
    ["- **[ Utils ]** support X".toList] []
    "# Changelog\n\n## [1.9.0] - 2025-01-01\n### Added\n- **[ Utils ]** support X\n".toList
    rfl (by decide) (by decide) (by decide) (by decide) (by decide) (by decide)
    (Or.inl rfl),
   entry_appended_at_run_end_in_order.2 "1.9.0".toList "2025-01-01".toList
    "add".toList "Added".toList "M".toList "a".toList ["b".toList]
    "# Changelog\n".toList rfl (by decide) (by decide) (by decide) (by decide)
    (by decide) (by decide)⟩

theorem merge_total_unless_header_embedded_witness :
    ∃ out, updateChangelog "1.9.0".toList "2025-01-01".toList "add".toList
      "M".toList "hi".toList (some ("# Changelog\n".toList)) = some out :=
  merge_total_unless_header_embedded "1.9.0".toList "2025-01-01".toList
    "add".toList "Added".toList "M".toList "hi".toList "# Changelog\n".toList
    rfl (Or.inl (by decide))

theorem invalid_args_or_empty_message_no_mutation_witness :
    (mainRun ["new.py".toList, "bogus".toList, "Utils".toList] "hi".toList
      "2025-01-01".toList none).exitCode ≠ 0 ∧
    (mainRun ["new.py".toList, "bogus".toList, "Utils".toList] "hi".toList
      "2025-01-01".toList none).usagePrinted = true ∧
    (mainRun ["new.py".toList, "bogus".toList, "Utils".toList] "hi".toList
      "2025-01-01".toList none).file = none ∧
    (mainRun ["new.py".toList, "add".toList, "Utils".toList] [] "2025-01-01".toList
      (some ("# Changelog\n".toList))).exitCode ≠ 0 ∧
    (mainRun ["new.py".toList, "add".toList, "Utils".toList] [] "2025-01-01".toList
      (some ("# Changelog\n".toList))).file = some ("# Changelog\n".toList) := by
  refine ⟨?_, ?_, ?_, ?_, ?_⟩
  · exact (invalid_args_or_empty_message_no_mutation.1
      ["new.py".toList, "bogus".toList, "Utils".toList] "hi".toList
      "2025-01-01".toList none (Or.inr rfl)).1
  · exact (invalid_args_or_empty_message_no_mutation.1
      ["new.py".toList, "bogus".toList, "Utils".toList] "hi".toList
      "2025-01-01".toList none (Or.inr rfl)).2.1
  · exact (invalid_args_or_empty_message_no_mutation.1
      ["new.py".toList, "bogus".toList, "Utils".toList] "hi".toList
      "2025-01-01".toList none (Or.inr rfl)).2.2
  · exact (invalid_args_or_empty_message_no_mutation.2
      ["new.py".toList, "add".toList, "Utils".toList] "2025-01-01".toList
      (some ("# Changelog\n".toList))).1
  · exact (invalid_args_or_empty_message_no_mutation.2
      ["new.py".toList, "add".toList, "Utils".toList] "2025-01-01".toList
      (some ("# Changelog\n".toList))).2

theorem entry_formatter_tag_selection_witness :
    entryLine "Types".toList "m".toList =
      "- **[ ".toList ++ "Types".toList ++ (" ]** ".toList ++ "m".toList) ∧
    entryLine "Scripts".toList "m".toList =
      "- **( ".toList ++ "Scripts".toList ++ (" )** ".toList ++ "m".toList) :=
  ⟨entry_formatter_tag_selection.1 "Types".toList "m".toList (by decide),
   entry_formatter_tag_selection.2.1 "Scripts".toList "m".toList (by decide)⟩

theorem cli_module_never_recognized_witness :
    cliModule ["new.py".toList, "add".toList, "Types".toList, "Foo.cpp".toList] =
      (["new.py".toList, "add".toList, "Types".toList, "Foo.cpp".toList].getD 2 []) ++
        ':' :: ' ' :: joinWith (',' :: [' '])
          (["new.py".toList, "add".toList, "Types".toList, "Foo.cpp".toList].drop 3) ∧
    isSubstr (':' :: [' '])
      (cliModule ["new.py".toList, "add".toList, "Types".toList, "Foo.cpp".toList]) =
      true ∧
    cliModule ["new.py".toList, "add".toList, "Types".toList, "Foo.cpp".toList] ∉
      MODULES := by
  obtain ⟨ha, hb, hc, -⟩ := cli_module_never_recognized
    ["new.py".toList, "add".toList, "Types".toList, "Foo.cpp".toList] (by decide)
  exact ⟨ha, hb, hc⟩
